import Mathlib

/-!
Shallow embedding of the reconciliation core of `src/db/CRUD.py` and its
data model `src/db/Models/product_models.py`.

The Entity Store (three relational tables: products, locations,
location_products) is modelled as a `Store` record.  Surrogate keys are
autoincrementing naturals starting at 1, modelled by the counters
`nextPid` / `nextLid`.  The surrogate `id` column of `location_products`
is not modelled: the table is fully deleted on every run and no code
path in the repository reads that id.

`update_db` is embedded as a pure function from a store and the already
validated batch (the `pydantic_list_of_products`) to the new store and the
returned counter.  The HTTP fetch, the SQLAlchemy session, logging, and
the Monday 4-5am vector-store rebuild (an external side effect that does
not touch the store or the returned count) are outside the embedding.
-/

/-- A row of the `products` or `locations` table: a surrogate id together
with the natural key (product name, or location address).  The nullable
`phone` column of `locations` is never touched by the reconciler and is
not modelled. -/
structure Row where
  id : Nat
  name : String
deriving Repr, DecidableEq

/-- A row of the `location_products` association table:
`(product_id, location_id, price)`. -/
structure Assoc where
  product_id : Nat
  location_id : Nat
  price : Int
deriving Repr, DecidableEq

/-- The Entity Store: the three tables plus the autoincrement counters of
the two entity tables. -/
structure Store where
  products : List Row
  locations : List Row
  assocs : List Assoc
  nextPid : Nat
  nextLid : Nat
deriving Repr, DecidableEq

/-- The price value carried by a feed record: per the feed contract it is
numeric or a numeric string.  A fractional numeric value is modelled as a
rational. -/
inductive PriceVal where
  | int (n : Int)
  | rat (q : ℚ)
  | str (s : String)
deriving Repr, DecidableEq

/-- One validated feed record (`LocationProductSchema`): nested product
name, nested location address, raw price. -/
structure Rec where
  productName : String
  locationAddress : String
  price : PriceVal
deriving Repr, DecidableEq

/-- Python `str.strip()`: drop leading and trailing whitespace. -/
def pyStrip (s : String) : String :=
  ⟨(((s.data.dropWhile Char.isWhitespace).reverse.dropWhile Char.isWhitespace).reverse)⟩

/-- Numeric value of a list of decimal digit characters. -/
def digitsVal (l : List Char) : Nat :=
  l.foldl (fun a c => a * 10 + (c.toNat - 48)) 0

/-- Python `int(s)` on a string: optional surrounding whitespace, optional
sign, then decimal digits; anything else (including a fractional string
such as `"10.5"`) raises, modelled as `none`. -/
def parseIntString (s : String) : Option Int :=
  match (pyStrip s).data with
  | '-' :: ds => if !ds.isEmpty && ds.all Char.isDigit then some (-(digitsVal ds : Int)) else none
  | '+' :: ds => if !ds.isEmpty && ds.all Char.isDigit then some (digitsVal ds) else none
  | ds => if !ds.isEmpty && ds.all Char.isDigit then some (digitsVal ds) else none

/-- Python `int(x)` on a numeric value: truncation toward zero. -/
def pyTrunc (q : ℚ) : Int :=
  q.num.tdiv q.den

/-- Python `int(item.price)` in `update_db`: succeeds on integers, truncates
fractional numerics toward zero, parses integer strings, and raises
(modelled as `none`) otherwise. -/
def pyInt : PriceVal → Option Int
  | .int n => some n
  | .rat q => some (pyTrunc q)
  | .str s => parseIntString s

/-- The dict comprehension plus `.get`:
`{p.name: p.id for p in rows}` followed by `existing.get(key)`.
A later row with the same name overwrites an earlier one. -/
def dictGet : List Row → String → Option Nat
  | [], _ => none
  | r :: rest, key =>
      match dictGet rest key with
      | some i => some i
      | none => if r.name = key then some r.id else none

/-- The Pass 1 scan of `update_db` (lines 123-131 of CRUD.py) for one
entity kind: collect, in input order, the names of `feed` that are neither
among `existing` stored names nor already queued in this batch (`acc` is
both the queue and the auxiliary seen-set, which coincide).  Note the
UNTRIMMED `item.product.name` / `item.location.address` is used here. -/
def collectNew (existing : List String) (pick : Rec → String) : List String → List Rec → List String
  | acc, [] => acc
  | acc, r :: rest =>
      if pick r ∈ existing ∨ pick r ∈ acc then collectNew existing pick acc rest
      else collectNew existing pick (acc ++ [pick r]) rest

/-- Assign consecutive autoincrement ids starting at `start` to a queue of
new names, as the bulk insert plus re-select does. -/
def assignIds : Nat → List String → List Row
  | _, [] => []
  | start, n :: rest => ⟨start, n⟩ :: assignIds (start + 1) rest

/-- Pass 1 of `update_db` (lines 111-144): load existing natural keys,
queue new products and locations (deduplicated within the batch), bulk
insert them, and leave the refreshed store from which the lookup maps of
Pass 2 are rebuilt. -/
def pass1 (s : Store) (feed : List Rec) : Store :=
  let np := collectNew (s.products.map Row.name) (fun r => r.productName) [] feed
  let nl := collectNew (s.locations.map Row.name) (fun r => r.locationAddress) [] feed
  { products := s.products ++ assignIds s.nextPid np
    locations := s.locations ++ assignIds s.nextLid nl
    assocs := s.assocs
    nextPid := s.nextPid + np.length
    nextLid := s.nextLid + nl.length }

/-- Pass 2 of `update_db` (lines 150-179): rescan the records in input
order with the lookup maps `pm` / `lm` rebuilt from the refreshed store.
For each record: parse the price (skip the record on failure); look the
STRIPPED name/address up (skip if either id is falsy, i.e. absent or 0,
mirroring `if not product_id or not location_id`); skip duplicates of an
already seen `(product_id, location_id)` key; otherwise append the
association and bump the counter.  Returns the association rows to bulk
insert and the counter. -/
def pass2 (pm lm : List Row) : List (Nat × Nat) → List Rec → List Assoc × Nat
  | _, [] => ([], 0)
  | seen, r :: rest =>
      match pyInt r.price with
      | none => pass2 pm lm seen rest
      | some pr =>
          match dictGet pm (pyStrip r.productName), dictGet lm (pyStrip r.locationAddress) with
          | some pid, some lid =>
              if pid = 0 ∨ lid = 0 then pass2 pm lm seen rest
              else if (pid, lid) ∈ seen then pass2 pm lm seen rest
              else
                let res := pass2 pm lm ((pid, lid) :: seen) rest
                (⟨pid, lid, pr⟩ :: res.1, res.2 + 1)
          | _, _ => pass2 pm lm seen rest

/-- `update_db` (CRUD.py lines 93-191), given the validated batch: Pass 1
inserts the new entities and commits; the `LocationProduct` table is
deleted in full and the deletion committed; Pass 2 builds the new
association rows, which are bulk inserted; the counter is returned. -/
def update_db (s : Store) (feed : List Rec) : Store × Nat :=
  let s1 := pass1 s feed
  let res := pass2 s1.products s1.locations [] feed
  ({ s1 with assocs := res.1 }, res.2)

/-- `get_all_products` (CRUD.py lines 251-256): select all products; a
falsy (empty) result list yields `None`, otherwise the list of names. -/
def get_all_products (s : Store) : Option (List String) :=
  if s.products.isEmpty then none else some (s.products.map Row.name)

/-- A fresh, empty store as `create_db` leaves it: empty tables,
autoincrement counters at 1. -/
def emptyStore : Store :=
  { products := [], locations := [], assocs := [], nextPid := 1, nextLid := 1 }

/-- The conditions under which a Pass 2 record survives to the lookup
stage, as a single resolution view: the stripped name and address both
resolve to truthy (nonzero) ids. -/
def resolveKey (pm lm : List Row) (r : Rec) : Option (Nat × Nat) :=
  match dictGet pm (pyStrip r.productName), dictGet lm (pyStrip r.locationAddress) with
  | some pid, some lid => if pid = 0 ∨ lid = 0 then none else some (pid, lid)
  | _, _ => none

/-- The first record of the batch that parses and resolves to the key
`(pid, lid)` — the record whose price survives deduplication for that
key. -/
def firstHit (pm lm : List Row) (pid lid : Nat) (l : List Rec) : Option Rec :=
  l.find? (fun r => (pyInt r.price).isSome && (resolveKey pm lm r == some (pid, lid)))

/-- Boolean key filter on association rows. -/
def keyEq (pid lid : Nat) (a : Assoc) : Bool :=
  a.product_id == pid && a.location_id == lid

/-- Database well-formedness, as guaranteed by the unique constraints and
the autoincrement sequences: natural keys are unique, surrogate ids are
unique, positive, and below the next autoincrement value, and the
autoincrement counters are at least 1. -/
def StoreWF (s : Store) : Prop :=
  (s.products.map Row.name).Nodup ∧ (s.products.map Row.id).Nodup ∧
  (∀ r ∈ s.products, 1 ≤ r.id ∧ r.id < s.nextPid) ∧
  (s.locations.map Row.name).Nodup ∧ (s.locations.map Row.id).Nodup ∧
  (∀ r ∈ s.locations, 1 ≤ r.id ∧ r.id < s.nextLid) ∧
  1 ≤ s.nextPid ∧ 1 ≤ s.nextLid

/-- Every id returned by the lookup map belongs to a stored row with the
looked-up natural key. -/
theorem dictGet_mem {rows : List Row} {k : String} {i : Nat}
    (h : dictGet rows k = some i) : ∃ r ∈ rows, r.name = k ∧ r.id = i := by
  induction rows with
  | nil => simp [dictGet] at h
  | cons r rest ih =>
      rw [dictGet] at h
      cases hr : dictGet rest k with
      | some j =>
          rw [hr] at h
          obtain rfl : j = i := by simpa using h
          obtain ⟨r', hr', hn, hi⟩ := ih hr
          exact ⟨r', by simp [hr'], hn, hi⟩
      | none =>
          rw [hr] at h
          by_cases hn : r.name = k
          · refine ⟨r, by simp, hn, ?_⟩
            simpa [hn] using h
          · simp [hn] at h

/-- A natural key present among the stored rows is found by the lookup
map. -/
theorem dictGet_of_mem_names {rows : List Row} {k : String}
    (h : k ∈ rows.map Row.name) : ∃ i, dictGet rows k = some i := by
  induction rows with
  | nil => simp at h
  | cons r rest ih =>
      rw [dictGet]
      cases hr : dictGet rest k with
      | some j => exact ⟨j, rfl⟩
      | none =>
          have hk : k = r.name := by
            rcases List.mem_map.mp h with ⟨r', hr', hname⟩
            rcases List.mem_cons.mp hr' with rfl | hmem
            · exact hname.symm
            · rcases ih (List.mem_map.mpr ⟨r', hmem, hname⟩) with ⟨j, hj⟩
              rw [hj] at hr; cases hr
          subst hk
          exact ⟨r.id, by simp⟩

/-- When the stored names are unique, the lookup map sends each stored
row's name to that row's id. -/
theorem dictGet_self {rows : List Row} (hnd : (rows.map Row.name).Nodup)
    {r : Row} (h : r ∈ rows) : dictGet rows r.name = some r.id := by
  induction rows with
  | nil => simp at h
  | cons x rest ih =>
      rw [dictGet]
      have hnd' : (x.name :: rest.map Row.name).Nodup := by simpa using hnd
      rcases List.mem_cons.mp h with rfl | hmem
      · cases hr : dictGet rest r.name with
        | some j =>
            obtain ⟨r', hr', hn, _⟩ := dictGet_mem hr
            exact absurd (List.mem_map.mpr ⟨r', hr', hn⟩) (List.nodup_cons.mp hnd').1
        | none => simp
      · rw [ih (List.nodup_cons.mp hnd').2 hmem]

/-- The already collected queue is contained in the result of
`collectNew`. -/
theorem subset_collectNew (existing : List String) (pick : Rec → String)
    (l : List Rec) : ∀ acc, ∀ n ∈ acc, n ∈ collectNew existing pick acc l := by
  induction l with
  | nil => intro acc n hn; simpa [collectNew] using hn
  | cons r rest ih =>
      intro acc n hn
      rw [collectNew]
      by_cases hc : pick r ∈ existing ∨ pick r ∈ acc
      · simpa [hc] using ih acc n hn
      · simpa [hc] using ih (acc ++ [pick r]) n (by simp [hn])

/-- Every record's picked name either already existed in the store or ends
up in the queue of new names. -/
theorem mem_collectNew (existing : List String) (pick : Rec → String)
    {l : List Rec} {r : Rec} (h : r ∈ l) :
    ∀ acc, pick r ∈ existing ∨ pick r ∈ collectNew existing pick acc l := by
  induction l with
  | nil => simp at h
  | cons x rest ih =>
      intro acc
      rw [collectNew]
      rcases List.mem_cons.mp h with rfl | hmem
      · by_cases hc : pick r ∈ existing ∨ pick r ∈ acc
        · rcases hc with hc | hc
          · exact Or.inl hc
          · exact Or.inr (by simpa [hc] using subset_collectNew existing pick rest acc _ hc)
        · refine Or.inr ?_
          simp only [if_neg hc]
          exact subset_collectNew existing pick rest _ _ (by simp)
      · by_cases hc : pick x ∈ existing ∨ pick x ∈ acc
        · simpa [hc] using ih hmem acc
        · simpa [hc] using ih hmem (acc ++ [pick x])

/-- Names queued by `collectNew` never clash with the existing names. -/
theorem collectNew_not_existing (existing : List String) (pick : Rec → String)
    (l : List Rec) : ∀ acc, (∀ n ∈ acc, n ∉ existing) →
    ∀ n ∈ collectNew existing pick acc l, n ∉ existing := by
  induction l with
  | nil => intro acc hacc; simpa [collectNew] using hacc
  | cons r rest ih =>
      intro acc hacc
      rw [collectNew]
      by_cases hc : pick r ∈ existing ∨ pick r ∈ acc
      · simpa [hc] using ih acc hacc
      · simp only [if_neg hc]
        refine ih (acc ++ [pick r]) ?_
        intro n hn
        rcases List.mem_append.mp hn with hn | hn
        · exact hacc n hn
        · rcases List.mem_singleton.mp hn with rfl
          exact fun hex => hc (Or.inl hex)

/-- The queue built by `collectNew` has no duplicates. -/
theorem collectNew_nodup (existing : List String) (pick : Rec → String)
    (l : List Rec) : ∀ acc, acc.Nodup → (collectNew existing pick acc l).Nodup := by
  induction l with
  | nil => intro acc hacc; simpa [collectNew] using hacc
  | cons r rest ih =>
      intro acc hacc
      rw [collectNew]
      by_cases hc : pick r ∈ existing ∨ pick r ∈ acc
      · simpa [hc] using ih acc hacc
      · simp only [if_neg hc]
        refine ih (acc ++ [pick r]) ?_
        simpa [List.nodup_append, hacc] using fun h => hc (Or.inr h)

/-- The bulk insert inserts exactly the queued names, in order. -/
theorem assignIds_map_name (l : List String) :
    ∀ start, (assignIds start l).map Row.name = l := by
  induction l with
  | nil => intro start; simp [assignIds]
  | cons n rest ih => intro start; simp [assignIds, ih]

/-- The ids handed out by the bulk insert lie in the autoincrement
window. -/
theorem assignIds_id_bound (l : List String) :
    ∀ start, ∀ r ∈ assignIds start l, start ≤ r.id ∧ r.id < start + l.length := by
  induction l with
  | nil => intro start r hr; simp [assignIds] at hr
  | cons n rest ih =>
      intro start r hr
      rw [assignIds] at hr
      rcases List.mem_cons.mp hr with rfl | hmem
      · constructor
        · exact Nat.le_refl _
        · show start < start + (n :: rest).length
          simp only [List.length_cons]
          omega
      · obtain ⟨h1, h2⟩ := ih (start + 1) r hmem
        refine ⟨by omega, ?_⟩
        simp only [List.length_cons]
        omega

/-- The ids handed out by the bulk insert are pairwise distinct. -/
theorem assignIds_id_nodup (l : List String) :
    ∀ start, ((assignIds start l).map Row.id).Nodup := by
  induction l with
  | nil => intro start; simp [assignIds]
  | cons n rest ih =>
      intro start
      rw [assignIds]
      refine List.nodup_cons.mpr ⟨?_, ih (start + 1)⟩
      intro hmem
      rcases List.mem_map.mp hmem with ⟨r, hr, hid⟩
      obtain ⟨h1, _⟩ := assignIds_id_bound rest (start + 1) r hr
      have hid' : r.id = start := hid
      omega

/-- After Pass 1 the stored product names are the old ones followed by the
queued new ones. -/
theorem pass1_products_names (s : Store) (feed : List Rec) :
    (pass1 s feed).products.map Row.name =
      s.products.map Row.name ++
        collectNew (s.products.map Row.name) (fun r => r.productName) [] feed := by
  simp [pass1, assignIds_map_name]

/-- After Pass 1 the stored location addresses are the old ones followed by
the queued new ones. -/
theorem pass1_locations_names (s : Store) (feed : List Rec) :
    (pass1 s feed).locations.map Row.name =
      s.locations.map Row.name ++
        collectNew (s.locations.map Row.name) (fun r => r.locationAddress) [] feed := by
  simp [pass1, assignIds_map_name]

/-- Every batch record's (untrimmed) product name is stored after
Pass 1. -/
theorem mem_pass1_productNames {feed : List Rec} {r : Rec} (s : Store) (h : r ∈ feed) :
    r.productName ∈ (pass1 s feed).products.map Row.name := by
  rw [pass1_products_names]
  rcases mem_collectNew (s.products.map Row.name) (fun r => r.productName) h [] with hc | hc
  · exact List.mem_append.mpr (Or.inl hc)
  · exact List.mem_append.mpr (Or.inr hc)

/-- Every batch record's (untrimmed) location address is stored after
Pass 1. -/
theorem mem_pass1_locationNames {feed : List Rec} {r : Rec} (s : Store) (h : r ∈ feed) :
    r.locationAddress ∈ (pass1 s feed).locations.map Row.name := by
  rw [pass1_locations_names]
  rcases mem_collectNew (s.locations.map Row.name) (fun r => r.locationAddress) h [] with hc | hc
  · exact List.mem_append.mpr (Or.inl hc)
  · exact List.mem_append.mpr (Or.inr hc)

/-- Pass 1 preserves uniqueness of the stored product names. -/
theorem pass1_products_names_nodup {s : Store} (h : (s.products.map Row.name).Nodup)
    (feed : List Rec) : ((pass1 s feed).products.map Row.name).Nodup := by
  rw [pass1_products_names]
  refine List.nodup_append.mpr ⟨h, collectNew_nodup _ _ _ [] (by simp), ?_⟩
  intro a ha hb
  exact collectNew_not_existing _ _ _ [] (by simp) a hb ha

/-- Pass 1 preserves uniqueness of the stored location addresses. -/
theorem pass1_locations_names_nodup {s : Store} (h : (s.locations.map Row.name).Nodup)
    (feed : List Rec) : ((pass1 s feed).locations.map Row.name).Nodup := by
  rw [pass1_locations_names]
  refine List.nodup_append.mpr ⟨h, collectNew_nodup _ _ _ [] (by simp), ?_⟩
  intro a ha hb
  exact collectNew_not_existing _ _ _ [] (by simp) a hb ha

/-- Appending a freshly id-assigned batch to a well-formed table keeps the
ids unique and inside the enlarged autoincrement window. -/
theorem wf_table_append {rows : List Row} {next : Nat} (names : List String)
    (hid : (rows.map Row.id).Nodup) (hb : ∀ r ∈ rows, 1 ≤ r.id ∧ r.id < next)
    (h1 : 1 ≤ next) :
    ((rows ++ assignIds next names).map Row.id).Nodup ∧
    (∀ r ∈ rows ++ assignIds next names, 1 ≤ r.id ∧ r.id < next + names.length) ∧
    1 ≤ next + names.length := by
  refine ⟨?_, ?_, by omega⟩
  · rw [List.map_append]
    refine List.nodup_append.mpr ⟨hid, assignIds_id_nodup names next, ?_⟩
    intro a ha hb'
    rcases List.mem_map.mp ha with ⟨r, hr, rfl⟩
    rcases List.mem_map.mp hb' with ⟨r', hr', hid'⟩
    obtain ⟨_, hlt⟩ := hb r hr
    obtain ⟨hge, _⟩ := assignIds_id_bound names next r' hr'
    omega
  · intro r hr
    rcases List.mem_append.mp hr with hr | hr
    · obtain ⟨hge, hlt⟩ := hb r hr
      exact ⟨hge, by omega⟩
    · obtain ⟨hge, hlt⟩ := assignIds_id_bound names next r hr
      exact ⟨by omega, hlt⟩

/-- Pass 1 preserves database well-formedness. -/
theorem pass1_WF {s : Store} (h : StoreWF s) (feed : List Rec) :
    StoreWF (pass1 s feed) := by
  obtain ⟨hpn, hpi, hpb, hln, hli, hlb, hp1, hl1⟩ := h
  obtain ⟨hpi', hpb', hp1'⟩ := wf_table_append
    (collectNew (s.products.map Row.name) (fun r => r.productName) [] feed) hpi hpb hp1
  obtain ⟨hli', hlb', hl1'⟩ := wf_table_append
    (collectNew (s.locations.map Row.name) (fun r => r.locationAddress) [] feed) hli hlb hl1
  exact ⟨pass1_products_names_nodup hpn feed, hpi', hpb',
    pass1_locations_names_nodup hln feed, hli', hlb', hp1', hl1'⟩

/-- One step of Pass 2, expressed through the resolution view: a record is
skipped unless its price parses and its stripped natural keys resolve to a
truthy id pair; a resolved record is skipped when its key was already
seen, and otherwise contributes its association and a counter
increment. -/
theorem pass2_cons (pm lm : List Row) (seen : List (Nat × Nat)) (r : Rec) (rest : List Rec) :
    pass2 pm lm seen (r :: rest) =
      match pyInt r.price, resolveKey pm lm r with
      | some pr, some k =>
          if k ∈ seen then pass2 pm lm seen rest
          else (⟨k.1, k.2, pr⟩ :: (pass2 pm lm (k :: seen) rest).1,
                (pass2 pm lm (k :: seen) rest).2 + 1)
      | _, _ => pass2 pm lm seen rest := by
  cases hp : pyInt r.price with
  | none => simp [pass2, hp]
  | some pr =>
      cases hd1 : dictGet pm (pyStrip r.productName) with
      | none => simp [pass2, resolveKey, hp, hd1]
      | some pid =>
          cases hd2 : dictGet lm (pyStrip r.locationAddress) with
          | none => simp [pass2, resolveKey, hp, hd1, hd2]
          | some lid =>
              by_cases hz : pid = 0 ∨ lid = 0
              · simp [pass2, resolveKey, hp, hd1, hd2, hz]
              · by_cases hs : (pid, lid) ∈ seen
                · simp [pass2, resolveKey, hp, hd1, hd2, hz, hs]
                · simp [pass2, resolveKey, hp, hd1, hd2, hz, hs]

/-- The returned counter always equals the number of association rows
handed to the bulk insert. -/
theorem pass2_count (pm lm : List Row) :
    ∀ (l : List Rec) (seen), (pass2 pm lm seen l).2 = (pass2 pm lm seen l).1.length := by
  intro l
  induction l with
  | nil => intro seen; rfl
  | cons r rest ih =>
      intro seen
      rw [pass2_cons]
      cases hp : pyInt r.price with
      | none => exact ih seen
      | some pr =>
          cases hk : resolveKey pm lm r with
          | none => exact ih seen
          | some k =>
              by_cases hs : k ∈ seen
              · simp only [if_pos hs]; exact ih seen
              · simp only [if_neg hs, List.length_cons, ih (k :: seen)]

/-- A record whose price does not parse is transparent to Pass 2: the
produced associations and the counter are as if the record were absent. -/
theorem pass2_erase_bad {pm lm : List Row} {bad : Rec} (hbad : pyInt bad.price = none)
    (l1 l2 : List Rec) :
    ∀ seen, pass2 pm lm seen (l1 ++ bad :: l2) = pass2 pm lm seen (l1 ++ l2) := by
  induction l1 with
  | nil =>
      intro seen
      simp only [List.nil_append]
      rw [pass2_cons, hbad]
  | cons r rest ih =>
      intro seen
      simp only [List.cons_append]
      rw [pass2_cons, pass2_cons]
      cases hp : pyInt r.price with
      | none => exact ih seen
      | some pr =>
          cases hk : resolveKey pm lm r with
          | none => exact ih seen
          | some k =>
              by_cases hs : k ∈ seen
              · simp only [if_pos hs]; exact ih seen
              · simp only [if_neg hs, ih (k :: seen)]

/-- Characterization of deduplication: among the association rows produced
by Pass 2, the ones with key `(pid, lid)` are exactly one row carrying the
price of the FIRST record that parses and resolves to that key (none when
no record does, or when the key was already seen). -/
theorem pass2_filter_key (pm lm : List Row) (pid lid : Nat) :
    ∀ (l : List Rec) (seen : List (Nat × Nat)),
      ((pass2 pm lm seen l).1.filter (keyEq pid lid)) =
        if (pid, lid) ∈ seen then []
        else
          match firstHit pm lm pid lid l with
          | some r => [⟨pid, lid, (pyInt r.price).getD 0⟩]
          | none => [] := by
  intro l
  induction l with
  | nil =>
      intro seen
      simp [pass2, firstHit]
  | cons r rest ih =>
      intro seen
      rw [pass2_cons]
      cases hp : pyInt r.price with
      | none =>
          have hfind : firstHit pm lm pid lid (r :: rest) = firstHit pm lm pid lid rest := by
            rw [firstHit, List.find?_cons_of_neg, ← firstHit]
            simp [hp]
          rw [hfind]
          exact ih seen
      | some pr =>
          cases hk : resolveKey pm lm r with
          | none =>
              have hfind : firstHit pm lm pid lid (r :: rest) = firstHit pm lm pid lid rest := by
                rw [firstHit, List.find?_cons_of_neg, ← firstHit]
                simp [hk]
              rw [hfind]
              exact ih seen
          | some k =>
              by_cases hkey : k = (pid, lid)
              · subst hkey
                have hfind : firstHit pm lm pid lid (r :: rest) = some r := by
                  rw [firstHit, List.find?_cons_of_pos]
                  simp [hp, hk]
                rw [hfind]
                by_cases hs : (pid, lid) ∈ seen
                · simp only [if_pos hs]
                  rw [ih seen, if_pos hs]
                · simp only [if_neg hs]
                  rw [List.filter_cons_of_pos (by simp [keyEq]), ih ((pid, lid) :: seen),
                    if_pos (by simp), hp]
                  rfl
              · have hfind : firstHit pm lm pid lid (r :: rest) = firstHit pm lm pid lid rest := by
                  rw [firstHit, List.find?_cons_of_neg, ← firstHit]
                  simp [hp, hk, hkey]
                rw [hfind]
                by_cases hs : k ∈ seen
                · simp only [if_pos hs]; exact ih seen
                · simp only [if_neg hs]
                  have hne : ¬ keyEq pid lid ⟨k.1, k.2, pr⟩ = true := by
                    simp only [keyEq, Bool.and_eq_true, beq_iff_eq]
                    intro ⟨h1, h2⟩
                    exact hkey (Prod.ext h1 h2)
                  rw [List.filter_cons_of_neg hne, ih (k :: seen)]
                  have hmem : ((pid, lid) ∈ k :: seen) ↔ ((pid, lid) ∈ seen) := by
                    simp only [List.mem_cons]
                    constructor
                    · rintro (h | h)
                      · exact absurd h.symm hkey
                      · exact h
                    · exact Or.inr
                  by_cases hs2 : (pid, lid) ∈ seen
                  · rw [if_pos hs2, if_pos (hmem.mpr hs2)]
                  · rw [if_neg hs2, if_neg (fun h => hs2 (hmem.mp h))]

/-- Every association row produced by Pass 2 originates from a batch
record: its price is the parsed price of that record and its key is the
record's resolved key. -/
theorem pass2_assoc_origin (pm lm : List Row) :
    ∀ (l : List Rec) (seen) (a : Assoc), a ∈ (pass2 pm lm seen l).1 →
      ∃ r ∈ l, pyInt r.price = some a.price ∧
        resolveKey pm lm r = some (a.product_id, a.location_id) := by
  intro l
  induction l with
  | nil => intro seen a ha; simp [pass2] at ha
  | cons r rest ih =>
      intro seen a ha
      rw [pass2_cons] at ha
      cases hp : pyInt r.price with
      | none =>
          rw [hp] at ha
          obtain ⟨r', hr', h1, h2⟩ := ih seen a ha
          exact ⟨r', by simp [hr'], h1, h2⟩
      | some pr =>
          rw [hp] at ha
          cases hk : resolveKey pm lm r with
          | none =>
              rw [hk] at ha
              obtain ⟨r', hr', h1, h2⟩ := ih seen a ha
              exact ⟨r', by simp [hr'], h1, h2⟩
          | some k =>
              rw [hk] at ha
              by_cases hs : k ∈ seen
              · simp only [if_pos hs] at ha
                obtain ⟨r', hr', h1, h2⟩ := ih seen a ha
                exact ⟨r', by simp [hr'], h1, h2⟩
              · simp only [if_neg hs] at ha
                rcases List.mem_cons.mp ha with rfl | hmem
                · exact ⟨r, by simp, hp, hk⟩
                · obtain ⟨r', hr', h1, h2⟩ := ih (k :: seen) a hmem
                  exact ⟨r', by simp [hr'], h1, h2⟩

/-- When every record of the scan parses and resolves to a fresh key, and
the resolved keys are pairwise distinct, Pass 2 keeps every record: the
counter equals the scan length. -/
theorem pass2_full (pm lm : List Row) :
    ∀ (l : List Rec) (seen : List (Nat × Nat)),
      (∀ r ∈ l, (pyInt r.price).isSome ∧ ∃ k, resolveKey pm lm r = some k ∧ k ∉ seen) →
      (l.map (resolveKey pm lm)).Nodup →
      (pass2 pm lm seen l).2 = l.length := by
  intro l
  induction l with
  | nil => intro seen _ _; rfl
  | cons r rest ih =>
      intro seen hall hnd
      obtain ⟨hp, k, hk, hks⟩ := hall r (by simp)
      obtain ⟨pr, hpr⟩ := Option.isSome_iff_exists.mp hp
      rw [pass2_cons, hpr, hk]
      simp only [if_neg hks, List.length_cons]
      have hstep : (pass2 pm lm (k :: seen) rest).2 = rest.length := by
        refine ih (k :: seen) ?_ ((List.nodup_cons.mp (by simpa using hnd)).2)
        intro r' hr'
        obtain ⟨hp', k', hk', hks'⟩ := hall r' (by simp [hr'])
        refine ⟨hp', k', hk', ?_⟩
        intro hmem
        rcases List.mem_cons.mp hmem with rfl | hmem2
        · have hhead : resolveKey pm lm r ∉ (rest.map (resolveKey pm lm)) :=
            (List.nodup_cons.mp (by simpa using hnd)).1
          refine absurd ?_ hhead
          rw [hk]
          exact List.mem_map.mpr ⟨r', hr', hk'⟩
        · exact hks' hmem2
      rw [hstep]

/-- With unique names and unique ids, the lookup map is injective:
distinct keys resolve to distinct ids. -/
theorem dictGet_inj {rows : List Row} (hi : (rows.map Row.id).Nodup)
    {k1 k2 : String} {i1 i2 : Nat} (h1 : dictGet rows k1 = some i1)
    (h2 : dictGet rows k2 = some i2) (hne : k1 ≠ k2) : i1 ≠ i2 := by
  obtain ⟨r1, hr1, hn1, hid1⟩ := dictGet_mem h1
  obtain ⟨r2, hr2, hn2, hid2⟩ := dictGet_mem h2
  intro heq
  have hr12 : r1 = r2 := by
    refine List.inj_on_of_nodup_map hi hr1 hr2 ?_
    rw [hid1, hid2, heq]
  exact hne (hn1.symm.trans (hr12 ▸ hn2))

/-- Destructor for a successful resolution: both lookups succeeded and
both ids are truthy. -/
theorem resolveKey_some {pm lm : List Row} {r : Rec} {k : Nat × Nat}
    (h : resolveKey pm lm r = some k) :
    dictGet pm (pyStrip r.productName) = some k.1 ∧
    dictGet lm (pyStrip r.locationAddress) = some k.2 ∧ k.1 ≠ 0 ∧ k.2 ≠ 0 := by
  unfold resolveKey at h
  cases hd1 : dictGet pm (pyStrip r.productName) with
  | none => simp [hd1] at h
  | some pid =>
      cases hd2 : dictGet lm (pyStrip r.locationAddress) with
      | none => simp [hd1, hd2] at h
      | some lid =>
          simp only [hd1, hd2] at h
          by_cases hz : pid = 0 ∨ lid = 0
          · simp [hz] at h
          · rw [if_neg hz] at h
            obtain rfl : (pid, lid) = k := Option.some.inj h
            push_neg at hz
            exact ⟨by simp [hd1], by simp [hd2], hz.1, hz.2⟩

/-- Constructor for a successful resolution. -/
theorem resolveKey_eq_some {pm lm : List Row} {r : Rec} {pid lid : Nat}
    (h1 : dictGet pm (pyStrip r.productName) = some pid)
    (h2 : dictGet lm (pyStrip r.locationAddress) = some lid)
    (hz1 : pid ≠ 0) (hz2 : lid ≠ 0) :
    resolveKey pm lm r = some (pid, lid) := by
  unfold resolveKey
  simp only [h1, h2]
  rw [if_neg (by tauto)]

/-- When every scanned name is already stored, Pass 1 queues nothing. -/
theorem collectNew_all_existing {existing : List String} {pick : Rec → String}
    {l : List Rec} (h : ∀ r ∈ l, pick r ∈ existing) :
    ∀ acc, collectNew existing pick acc l = acc := by
  induction l with
  | nil => intro acc; rfl
  | cons r rest ih =>
      intro acc
      rw [collectNew, if_pos (Or.inl (h r (by simp)))]
      exact ih (fun r' hr' => h r' (by simp [hr'])) acc

/-- Pass 1 is a no-op on a store that already holds every scanned name and
address. -/
theorem pass1_fixed {s : Store} {feed : List Rec}
    (hp : ∀ r ∈ feed, r.productName ∈ s.products.map Row.name)
    (hl : ∀ r ∈ feed, r.locationAddress ∈ s.locations.map Row.name) :
    pass1 s feed = s := by
  unfold pass1
  rw [collectNew_all_existing hp [], collectNew_all_existing hl []]
  cases s
  simp [assignIds]

/-- Unfolding equation of `update_db`. -/
theorem update_db_eq (s : Store) (feed : List Rec) :
    update_db s feed =
      ({ pass1 s feed with
          assocs := (pass2 (pass1 s feed).products (pass1 s feed).locations [] feed).1 },
       (pass2 (pass1 s feed).products (pass1 s feed).locations [] feed).2) := rfl

/-- The association table after a run is exactly the Pass 2 output. -/
theorem update_db_assocs (s : Store) (feed : List Rec) :
    (update_db s feed).1.assocs =
      (pass2 (pass1 s feed).products (pass1 s feed).locations [] feed).1 := rfl

/-- The products table after a run is the Pass 1 result. -/
theorem update_db_products (s : Store) (feed : List Rec) :
    (update_db s feed).1.products = (pass1 s feed).products := rfl

/-- The locations table after a run is the Pass 1 result. -/
theorem update_db_locations (s : Store) (feed : List Rec) :
    (update_db s feed).1.locations = (pass1 s feed).locations := rfl

/-- The returned counter is the Pass 2 counter. -/
theorem update_db_count (s : Store) (feed : List Rec) :
    (update_db s feed).2 =
      (pass2 (pass1 s feed).products (pass1 s feed).locations [] feed).2 := rfl

example : pyInt (.str "10") = some 10 := by decide
example : pyInt (.str "abc") = none := by decide
example : pyInt (.str "-5") = some (-5) := by decide
example : pyInt (.str "10.5") = none := by decide
example : pyTrunc (mkRat 21 2) = 10 := by decide
example : pyTrunc (mkRat (-21) 2) = -10 := by decide
example : pyStrip "  Aspirin " = "Aspirin" := by decide

example :
    update_db emptyStore
      [⟨"Aspirin", "Main St", .str "10"⟩, ⟨"Aspirin", "Main St", .str "20"⟩] =
    ({ products := [⟨1, "Aspirin"⟩], locations := [⟨1, "Main St"⟩],
       assocs := [⟨1, 1, 10⟩], nextPid := 2, nextLid := 2 }, 1) := by decide

/-- C10: `get_all_products` returns an absent result (not an empty
sequence) exactly when the store contains zero products, and otherwise the
non-empty sequence of all product names. -/
theorem c10_empty_store_query (s : Store) :
    (s.products = [] → get_all_products s = none) ∧
    (s.products ≠ [] →
      get_all_products s = some (s.products.map Row.name) ∧
        s.products.map Row.name ≠ []) := by
  constructor
  · intro h
    simp [get_all_products, h]
  · intro h
    refine ⟨?_, by simpa using h⟩
    simp only [get_all_products, List.isEmpty_iff]
    rw [if_neg h]

/-- Witness for C10 at two concrete stores: the empty store yields an
absent result, a one-product store yields the non-empty name list. -/
theorem c10_empty_store_query_witness :
    get_all_products emptyStore = none ∧
    (get_all_products
        { products := [⟨1, "Aspirin"⟩], locations := [], assocs := [],
          nextPid := 2, nextLid := 1 } =
        some (([⟨1, "Aspirin"⟩] : List Row).map Row.name) ∧
      ([⟨1, "Aspirin"⟩] : List Row).map Row.name ≠ []) :=
  ⟨(c10_empty_store_query emptyStore).1 rfl,
   (c10_empty_store_query _).2 (by decide)⟩

/-- C7: starting from a store with unique product names and unique
location addresses, a reconciliation run preserves both uniqueness
invariants, including when the same name or address occurs several times
in the batch or already exists in the store. -/
theorem c7_natural_key_uniqueness {s : Store} (feed : List Rec)
    (hp : (s.products.map Row.name).Nodup) (hl : (s.locations.map Row.name).Nodup) :
    ((update_db s feed).1.products.map Row.name).Nodup ∧
    ((update_db s feed).1.locations.map Row.name).Nodup := by
  rw [update_db_products, update_db_locations]
  exact ⟨pass1_products_names_nodup hp feed, pass1_locations_names_nodup hl feed⟩

/-- Witness for C7: a store already holding Aspirin/Main St reconciled
against a batch repeating that name and address twice keeps the names and
addresses unique. -/
theorem c7_natural_key_uniqueness_witness :
    ((update_db
        { products := [⟨1, "Aspirin"⟩], locations := [⟨1, "Main St"⟩],
          assocs := [], nextPid := 2, nextLid := 2 }
        [⟨"Aspirin", "Oak Ave", PriceVal.str "10"⟩,
         ⟨"Aspirin", "Oak Ave", PriceVal.str "20"⟩]).1.products.map Row.name).Nodup ∧
    ((update_db
        { products := [⟨1, "Aspirin"⟩], locations := [⟨1, "Main St"⟩],
          assocs := [], nextPid := 2, nextLid := 2 }
        [⟨"Aspirin", "Oak Ave", PriceVal.str "10"⟩,
         ⟨"Aspirin", "Oak Ave", PriceVal.str "20"⟩]).1.locations.map Row.name).Nodup :=
  c7_natural_key_uniqueness _ (by decide) (by decide)

/-- C8: after a completed run, every surviving association row's
product id and location id resolve to rows actually present in the
store. -/
theorem c8_referential_integrity (s : Store) (feed : List Rec) (a : Assoc)
    (ha : a ∈ (update_db s feed).1.assocs) :
    (∃ p ∈ (update_db s feed).1.products, p.id = a.product_id) ∧
    (∃ l ∈ (update_db s feed).1.locations, l.id = a.location_id) := by
  rw [update_db_assocs] at ha
  obtain ⟨r, hr, hpr, hkey⟩ := pass2_assoc_origin _ _ feed [] a ha
  obtain ⟨hd1, hd2, _, _⟩ := resolveKey_some hkey
  obtain ⟨p, hpmem, _, hpid⟩ := dictGet_mem hd1
  obtain ⟨lrow, hlmem, _, hlid⟩ := dictGet_mem hd2
  rw [update_db_products, update_db_locations]
  exact ⟨⟨p, hpmem, hpid⟩, ⟨lrow, hlmem, hlid⟩⟩

/-- Witness for C8 at a concrete run: the single produced association
references the inserted product and location rows. -/
theorem c8_referential_integrity_witness :
    (∃ p ∈ (update_db emptyStore
        [⟨"Aspirin", "Main St", PriceVal.str "10"⟩]).1.products,
      p.id = (⟨1, 1, 10⟩ : Assoc).product_id) ∧
    (∃ l ∈ (update_db emptyStore
        [⟨"Aspirin", "Main St", PriceVal.str "10"⟩]).1.locations,
      l.id = (⟨1, 1, 10⟩ : Assoc).location_id) :=
  c8_referential_integrity emptyStore _ ⟨1, 1, 10⟩ (by decide)

/-- C5: reconciliation is idempotent: a second run of `update_db` on the
unchanged feed leaves the Entity Store contents identical and returns the
same count. -/
theorem c5_reconcile_idempotent (s : Store) (feed : List Rec) :
    update_db (update_db s feed).1 feed = update_db s feed := by
  have hp1 : pass1 (update_db s feed).1 feed = (update_db s feed).1 := by
    refine pass1_fixed ?_ ?_
    · intro r hr
      exact mem_pass1_productNames s hr
    · intro r hr
      exact mem_pass1_locationNames s hr
  rw [update_db_eq ((update_db s feed).1) feed, hp1]
  rfl

/-- C1: the full-replace policy.  First, the pre-run association table has
no influence at all: runs from stores differing only in their association
rows coincide (in particular every pre-existing association row is
deleted).  Second, every post-run association row is derived from the
current batch: some record of the batch parses to its price and resolves
to its key — so a pair dropped from the feed has no association row after
the run. -/
theorem c1_full_replace (s : Store) (feed : List Rec) :
    (∀ A : List Assoc,
      update_db { s with assocs := A } feed = update_db { s with assocs := [] } feed) ∧
    (∀ a ∈ (update_db s feed).1.assocs,
      ∃ r ∈ feed, pyInt r.price = some a.price ∧
        resolveKey (pass1 s feed).products (pass1 s feed).locations r =
          some (a.product_id, a.location_id)) := by
  constructor
  · intro A
    cases s
    rfl
  · intro a ha
    rw [update_db_assocs] at ha
    exact pass2_assoc_origin _ _ feed [] a ha

/-- Witness for C1: a store holding a stale association for a pair the
feed no longer mentions; the run replaces the table and the surviving row
is derived from the batch. -/
theorem c1_full_replace_witness :
    ∃ r ∈ [(⟨"Aspirin", "Main St", PriceVal.str "10"⟩ : Rec)],
      pyInt r.price = some (⟨1, 1, 10⟩ : Assoc).price ∧
        resolveKey
          (pass1 { products := [⟨1, "Aspirin"⟩, ⟨2, "Ibuprofen"⟩],
                   locations := [⟨1, "Main St"⟩], assocs := [⟨2, 1, 99⟩],
                   nextPid := 3, nextLid := 2 }
            [(⟨"Aspirin", "Main St", PriceVal.str "10"⟩ : Rec)]).products
          (pass1 { products := [⟨1, "Aspirin"⟩, ⟨2, "Ibuprofen"⟩],
                   locations := [⟨1, "Main St"⟩], assocs := [⟨2, 1, 99⟩],
                   nextPid := 3, nextLid := 2 }
            [(⟨"Aspirin", "Main St", PriceVal.str "10"⟩ : Rec)]).locations
          r = some ((⟨1, 1, 10⟩ : Assoc).product_id, (⟨1, 1, 10⟩ : Assoc).location_id) :=
  (c1_full_replace
    { products := [⟨1, "Aspirin"⟩, ⟨2, "Ibuprofen"⟩], locations := [⟨1, "Main St"⟩],
      assocs := [⟨2, 1, 99⟩], nextPid := 3, nextLid := 2 }
    [(⟨"Aspirin", "Main St", PriceVal.str "10"⟩ : Rec)]).2 ⟨1, 1, 10⟩ (by decide)

/-- C2: first-occurrence-wins deduplication.  In general, the association
rows surviving for any key `(pid, lid)` are exactly one row carrying the
price of the first record of the batch that parses and resolves to that
key (or no row when no record does); concretely, the duplicated Aspirin
feed yields one product, one location, one association with price 10, and
the run returns 1. -/
theorem c2_first_occurrence_wins :
    (∀ (s : Store) (feed : List Rec) (pid lid : Nat),
      ((update_db s feed).1.assocs.filter (keyEq pid lid)) =
        match firstHit (pass1 s feed).products (pass1 s feed).locations pid lid feed with
        | some r => [⟨pid, lid, (pyInt r.price).getD 0⟩]
        | none => []) ∧
    update_db emptyStore
        [⟨"Aspirin", "Main St", PriceVal.str "10"⟩,
         ⟨"Aspirin", "Main St", PriceVal.str "20"⟩] =
      ({ products := [⟨1, "Aspirin"⟩], locations := [⟨1, "Main St"⟩],
         assocs := [⟨1, 1, 10⟩], nextPid := 2, nextLid := 2 }, 1) := by
  constructor
  · intro s feed pid lid
    rw [update_db_assocs]
    simpa using pass2_filter_key (pass1 s feed).products (pass1 s feed).locations pid lid feed []
  · decide

/-- The C3 claim as written ("the surviving entry is the last matching
record in input order") is false on the code: for the duplicated Aspirin
feed, the surviving association carries price 10 (the first record), not
price 20 (the last matching record). -/
theorem c3_last_match_counterexample :
    ((update_db emptyStore
        [⟨"Aspirin", "Main St", PriceVal.str "10"⟩,
         ⟨"Aspirin", "Main St", PriceVal.str "20"⟩]).1.assocs.map Assoc.price = [10]) ∧
    ((update_db emptyStore
        [⟨"Aspirin", "Main St", PriceVal.str "10"⟩,
         ⟨"Aspirin", "Main St", PriceVal.str "20"⟩]).1.assocs.map Assoc.price ≠ [20]) := by
  constructor
  · decide
  · decide

/-- C3 amended: at most one association survives per key, and the
surviving entry is the FIRST record of the batch (in original input
order) that parses and resolves to that key — its parsed price is the
stored price. -/
theorem c3_first_match_amended (s : Store) (feed : List Rec) (a : Assoc)
    (ha : a ∈ (update_db s feed).1.assocs) :
    ((update_db s feed).1.assocs.filter (keyEq a.product_id a.location_id)).length ≤ 1 ∧
    ∃ r, firstHit (pass1 s feed).products (pass1 s feed).locations
        a.product_id a.location_id feed = some r ∧
      pyInt r.price = some a.price := by
  have hchar : (update_db s feed).1.assocs.filter (keyEq a.product_id a.location_id) =
      match firstHit (pass1 s feed).products (pass1 s feed).locations
          a.product_id a.location_id feed with
      | some r => [⟨a.product_id, a.location_id, (pyInt r.price).getD 0⟩]
      | none => [] := by
    rw [update_db_assocs]
    simpa using pass2_filter_key (pass1 s feed).products (pass1 s feed).locations
      a.product_id a.location_id feed []
  have hmem : a ∈ (update_db s feed).1.assocs.filter (keyEq a.product_id a.location_id) :=
    List.mem_filter.mpr ⟨ha, by simp [keyEq]⟩
  cases hfind : firstHit (pass1 s feed).products (pass1 s feed).locations
      a.product_id a.location_id feed with
  | none =>
      rw [hfind] at hchar
      rw [hchar] at hmem
      simp at hmem
  | some r =>
      rw [hfind] at hchar
      refine ⟨by rw [hchar]; simp, r, rfl, ?_⟩
      rw [hchar] at hmem
      have ha2 : a = ⟨a.product_id, a.location_id, (pyInt r.price).getD 0⟩ := by
        simpa using hmem
      have hpred := List.find?_some hfind
      have hsome : (pyInt r.price).isSome := by
        simp only [Bool.and_eq_true] at hpred
        exact hpred.1
      obtain ⟨v, hv⟩ := Option.isSome_iff_exists.mp hsome
      have hp2 : a.price = (pyInt r.price).getD 0 := congrArg Assoc.price ha2
      rw [hv] at hp2
      rw [hv, hp2]
      rfl

/-- Witness for C3's amended statement at the duplicated Aspirin feed. -/
theorem c3_first_match_amended_witness :
    ((update_db emptyStore
        [⟨"Aspirin", "Main St", PriceVal.str "10"⟩,
         ⟨"Aspirin", "Main St", PriceVal.str "20"⟩]).1.assocs.filter
        (keyEq (⟨1, 1, 10⟩ : Assoc).product_id (⟨1, 1, 10⟩ : Assoc).location_id)).length ≤ 1 ∧
    ∃ r, firstHit
        (pass1 emptyStore
          [⟨"Aspirin", "Main St", PriceVal.str "10"⟩,
           ⟨"Aspirin", "Main St", PriceVal.str "20"⟩]).products
        (pass1 emptyStore
          [⟨"Aspirin", "Main St", PriceVal.str "10"⟩,
           ⟨"Aspirin", "Main St", PriceVal.str "20"⟩]).locations
        (⟨1, 1, 10⟩ : Assoc).product_id (⟨1, 1, 10⟩ : Assoc).location_id
        [⟨"Aspirin", "Main St", PriceVal.str "10"⟩,
         ⟨"Aspirin", "Main St", PriceVal.str "20"⟩] = some r ∧
      pyInt r.price = some (⟨1, 1, 10⟩ : Assoc).price :=
  c3_first_match_amended emptyStore
    [⟨"Aspirin", "Main St", PriceVal.str "10"⟩,
     ⟨"Aspirin", "Main St", PriceVal.str "20"⟩] ⟨1, 1, 10⟩ (by decide)

/-- The C6 claim's non-negativity is false on the code: `int("-5")`
succeeds in Python, no sign check exists in `update_db` or the data model,
and the run stores an association with the negative price -5. -/
theorem c6_negative_price_counterexample :
    ((update_db emptyStore
        [⟨"Aspirin", "Main St", PriceVal.str "-5"⟩]).1.assocs.map Assoc.price = [-5]) ∧
    ¬ (∀ a ∈ (update_db emptyStore
        [⟨"Aspirin", "Main St", PriceVal.str "-5"⟩]).1.assocs, 0 ≤ a.price) := by
  constructor
  · decide
  · decide

/-- C6 amended: after every run, every stored association's price is the
Python `int` coercion of some input record's price — an integer that may
be negative, since no sign check is performed; and a fractional numeric
input price is truncated toward zero rather than rejected. -/
theorem c6_price_coercion_amended (s : Store) (feed : List Rec) (a : Assoc)
    (ha : a ∈ (update_db s feed).1.assocs) :
    (∃ r ∈ feed, pyInt r.price = some a.price) ∧
    (∀ q : ℚ, pyInt (PriceVal.rat q) = some (pyTrunc q)) := by
  rw [update_db_assocs] at ha
  obtain ⟨r, hr, h1, _⟩ := pass2_assoc_origin _ _ feed [] a ha
  exact ⟨⟨r, hr, h1⟩, fun q => rfl⟩

/-- Witness for C6's amended statement: the stored association's price -5
is the coercion of the input string "-5", and a fractional numeric is
truncated. -/
theorem c6_price_coercion_amended_witness :
    (∃ r ∈ [(⟨"Aspirin", "Main St", PriceVal.str "-5"⟩ : Rec)],
      pyInt r.price = some (⟨1, 1, -5⟩ : Assoc).price) ∧
    (∀ q : ℚ, pyInt (PriceVal.rat q) = some (pyTrunc q)) :=
  c6_price_coercion_amended emptyStore
    [⟨"Aspirin", "Main St", PriceVal.str "-5"⟩] ⟨1, 1, -5⟩ (by decide)

/-- C9: the trim asymmetry of `update_db`.  Conjunct 1: Pass 1 stores every
batch record's product name and location address UNTRIMMED.  Conjunct 2:
whenever the STRIPPED name or address of a record matches no stored
name/address in the Pass 2 lookup maps, the record contributes neither an
association row nor a count increment — it is silently skipped. -/
theorem c9_trim_asymmetry (s : Store) (feed : List Rec) (r : Rec)
    (pm lm : List Row) (seen : List (Nat × Nat)) (rest : List Rec) :
    (r ∈ feed →
      r.productName ∈ (update_db s feed).1.products.map Row.name ∧
      r.locationAddress ∈ (update_db s feed).1.locations.map Row.name) ∧
    ((dictGet pm (pyStrip r.productName) = none ∨
      dictGet lm (pyStrip r.locationAddress) = none) →
      pass2 pm lm seen (r :: rest) = pass2 pm lm seen rest) := by
  constructor
  · intro h
    rw [update_db_products, update_db_locations]
    exact ⟨mem_pass1_productNames s h, mem_pass1_locationNames s h⟩
  · intro h
    have hk : resolveKey pm lm r = none := by
      unfold resolveKey
      rcases h with h | h
      · rw [h]
      · rw [h]
        cases hd1 : dictGet pm (pyStrip r.productName) <;> rfl
    rw [pass2_cons, hk]
    cases hp : pyInt r.price <;> rfl

/-- Witness for C9: the record carries the padded name "Aspirin "; the run
inserts the entity rows under the untrimmed strings, yet its association
is skipped (the stripped lookup finds nothing), as the Pass 2 equality at
the corresponding lookup maps shows. -/
theorem c9_trim_asymmetry_witness :
    ((⟨"Aspirin ", "Main St", PriceVal.str "10"⟩ : Rec).productName ∈
        (update_db emptyStore
          [⟨"Aspirin ", "Main St", PriceVal.str "10"⟩]).1.products.map Row.name ∧
      (⟨"Aspirin ", "Main St", PriceVal.str "10"⟩ : Rec).locationAddress ∈
        (update_db emptyStore
          [⟨"Aspirin ", "Main St", PriceVal.str "10"⟩]).1.locations.map Row.name) ∧
    pass2 [⟨1, "Aspirin "⟩] [⟨1, "Main St"⟩] []
        ([⟨"Aspirin ", "Main St", PriceVal.str "10"⟩] : List Rec) =
      pass2 [⟨1, "Aspirin "⟩] [⟨1, "Main St"⟩] [] [] :=
  ⟨(c9_trim_asymmetry emptyStore [⟨"Aspirin ", "Main St", PriceVal.str "10"⟩]
      ⟨"Aspirin ", "Main St", PriceVal.str "10"⟩ [⟨1, "Aspirin "⟩] [⟨1, "Main St"⟩]
      [] []).1 (by decide),
   (c9_trim_asymmetry emptyStore [⟨"Aspirin ", "Main St", PriceVal.str "10"⟩]
      ⟨"Aspirin ", "Main St", PriceVal.str "10"⟩ [⟨1, "Aspirin "⟩] [⟨1, "Main St"⟩]
      [] []).2 (Or.inl (by decide))⟩

/-- C4: malformed-price robustness.  For a well-formed store and a batch
of N valid records (trimmed names/addresses, parseable prices, pairwise
distinct (product, location) pairs) plus one record whose price fails to
parse, the run skips only the offending record: it returns N and applies
exactly N association rows, without aborting the batch. -/
theorem c4_malformed_price_robustness (s : Store) (l1 l2 : List Rec) (bad : Rec)
    (hwf : StoreWF s)
    (hgood : ∀ r ∈ l1 ++ l2, (pyInt r.price).isSome ∧
      pyStrip r.productName = r.productName ∧ pyStrip r.locationAddress = r.locationAddress)
    (hpairs : ((l1 ++ l2).map (fun r => (r.productName, r.locationAddress))).Nodup)
    (hbad : pyInt bad.price = none) :
    (update_db s (l1 ++ bad :: l2)).2 = (l1 ++ l2).length ∧
    (update_db s (l1 ++ bad :: l2)).1.assocs.length = (l1 ++ l2).length := by
  obtain ⟨hpn1, hpi1, hpb1, hln1, hli1, hlb1, _, _⟩ := pass1_WF hwf (l1 ++ bad :: l2)
  have hmemf : ∀ r ∈ l1 ++ l2, r ∈ l1 ++ bad :: l2 := by
    intro r hr
    rcases List.mem_append.mp hr with h | h
    · exact List.mem_append.mpr (Or.inl h)
    · exact List.mem_append.mpr (Or.inr (List.mem_cons.mpr (Or.inr h)))
  have hresolve : ∀ r ∈ l1 ++ l2, ∃ pid lid,
      dictGet (pass1 s (l1 ++ bad :: l2)).products r.productName = some pid ∧
      dictGet (pass1 s (l1 ++ bad :: l2)).locations r.locationAddress = some lid ∧
      resolveKey (pass1 s (l1 ++ bad :: l2)).products
        (pass1 s (l1 ++ bad :: l2)).locations r = some (pid, lid) := by
    intro r hr
    obtain ⟨_, htp, hta⟩ := hgood r hr
    obtain ⟨pid, hpid⟩ := dictGet_of_mem_names (mem_pass1_productNames s (hmemf r hr))
    obtain ⟨lid, hlid⟩ := dictGet_of_mem_names (mem_pass1_locationNames s (hmemf r hr))
    obtain ⟨p, hpm, _, hpidv⟩ := dictGet_mem hpid
    obtain ⟨lrow, hlm, _, hlidv⟩ := dictGet_mem hlid
    have hz1 : pid ≠ 0 := by
      have := (hpb1 p hpm).1
      omega
    have hz2 : lid ≠ 0 := by
      have := (hlb1 lrow hlm).1
      omega
    exact ⟨pid, lid, hpid, hlid,
      resolveKey_eq_some (by rw [htp]; exact hpid) (by rw [hta]; exact hlid) hz1 hz2⟩
  have hko : ∀ r1 ∈ l1 ++ l2, ∀ r2 ∈ l1 ++ l2,
      resolveKey (pass1 s (l1 ++ bad :: l2)).products
          (pass1 s (l1 ++ bad :: l2)).locations r1 =
        resolveKey (pass1 s (l1 ++ bad :: l2)).products
          (pass1 s (l1 ++ bad :: l2)).locations r2 → r1 = r2 := by
    intro r1 hr1 r2 hr2 heq
    obtain ⟨p1, q1, hp1, hq1, hk1⟩ := hresolve r1 hr1
    obtain ⟨p2, q2, hp2, hq2, hk2⟩ := hresolve r2 hr2
    rw [hk1, hk2] at heq
    have h12 := Option.some.inj heq
    have hpe : p1 = p2 := congrArg Prod.fst h12
    have hqe : q1 = q2 := congrArg Prod.snd h12
    have hname : r1.productName = r2.productName := by
      by_contra hne
      exact (dictGet_inj hpi1 hp1 hp2 hne) hpe
    have haddr : r1.locationAddress = r2.locationAddress := by
      by_contra hne
      exact (dictGet_inj hli1 hq1 hq2 hne) hqe
    exact List.inj_on_of_nodup_map hpairs hr1 hr2 (by rw [hname, haddr])
  have hnodup_keys : ((l1 ++ l2).map (resolveKey (pass1 s (l1 ++ bad :: l2)).products
      (pass1 s (l1 ++ bad :: l2)).locations)).Nodup :=
    (List.Nodup.of_map _ hpairs).map_on hko
  have hfull := pass2_full (pass1 s (l1 ++ bad :: l2)).products
    (pass1 s (l1 ++ bad :: l2)).locations (l1 ++ l2) []
    (fun r hr => ⟨(hgood r hr).1, by
      obtain ⟨p, q, _, _, hk⟩ := hresolve r hr
      exact ⟨(p, q), hk, by simp⟩⟩)
    hnodup_keys
  constructor
  · rw [update_db_count, pass2_erase_bad hbad l1 l2 []]
    exact hfull
  · rw [update_db_assocs, pass2_erase_bad hbad l1 l2 [], ← pass2_count]
    exact hfull

/-- Witness for C4: two valid records plus one record with the
unparseable price "abc"; the run returns 2 and stores 2 associations. -/
theorem c4_malformed_price_robustness_witness :
    (update_db emptyStore
        ([⟨"Aspirin", "Main St", PriceVal.str "10"⟩] ++
          (⟨"Paracetamol", "Elm St", PriceVal.str "abc"⟩ : Rec) ::
            [⟨"Ibuprofen", "Oak Ave", PriceVal.str "20"⟩])).2 =
      ([(⟨"Aspirin", "Main St", PriceVal.str "10"⟩ : Rec)] ++
        [(⟨"Ibuprofen", "Oak Ave", PriceVal.str "20"⟩ : Rec)]).length ∧
    (update_db emptyStore
        ([⟨"Aspirin", "Main St", PriceVal.str "10"⟩] ++
          (⟨"Paracetamol", "Elm St", PriceVal.str "abc"⟩ : Rec) ::
            [⟨"Ibuprofen", "Oak Ave", PriceVal.str "20"⟩])).1.assocs.length =
      ([(⟨"Aspirin", "Main St", PriceVal.str "10"⟩ : Rec)] ++
        [(⟨"Ibuprofen", "Oak Ave", PriceVal.str "20"⟩ : Rec)]).length :=
  c4_malformed_price_robustness emptyStore
    [⟨"Aspirin", "Main St", PriceVal.str "10"⟩]
    [⟨"Ibuprofen", "Oak Ave", PriceVal.str "20"⟩]
    ⟨"Paracetamol", "Elm St", PriceVal.str "abc"⟩
    (by unfold StoreWF; decide) (by decide) (by decide) (by decide)
